import Mathlib

/- Verification development for the Chemical Guys SDS scraper (src/main.go).
   The file models, as executable Lean functions over character lists and
   strings, the pieces of the program the specification claims speak about:
   the Go standard-library URL/path handling used by getFileNamesFromURLs,
   the regex-based link extractor ExtractURLsFromHTMLFile, the
   goquery-based extractor getSDSLinks, and the download pipeline
   (downloadPDF and the main loop), together with proofs settling each
   claim. -/

/-! ## Character and list primitives (models of Go `strings` helpers) -/

/-- ASCII double-quote character. -/
def dquoteC : Char := Char.ofNat 34

/-- ASCII single-quote character. -/
def squoteC : Char := Char.ofNat 39

/-- ASCII space character. -/
def spaceC : Char := Char.ofNat 32

/-- One-character string holding a single quote (used to build concrete test inputs). -/
def sqS : String := String.mk [squoteC]

/-- Model of Go `strings.HasPrefix pre s` on character lists (first argument is the would-be leading part). -/
def listStartsWith : List Char → List Char → Bool
  | [], _ => true
  | _ :: _, [] => false
  | p :: ps, c :: cs => p = c && listStartsWith ps cs

/-- Model of Go `strings.Contains s needle` on character lists. -/
def listContainsSub (needle : List Char) : List Char → Bool
  | [] => needle.isEmpty
  | c :: cs => listStartsWith needle (c :: cs) || listContainsSub needle cs

/-- Split a character list at the first occurrence of `x`: returns the part
    before it, and `some` the part after it (or `none` when `x` is absent).
    Models Go `net/url`'s `split(s, sep, true)` and `strings.Cut`. -/
def breakAtChar (x : Char) : List Char → List Char × Option (List Char)
  | [] => ([], none)
  | c :: cs =>
    if c = x then ([], some cs)
    else
      let r := breakAtChar x cs
      (c :: r.1, r.2)

/-- The characters after the last slash (the whole list when no slash occurs). -/
def afterLastSlash (s : List Char) : List Char :=
  (s.reverse.takeWhile (fun c => c ≠ '/')).reverse

/-- Remove trailing slashes (the first step of Go `path.Base`). -/
def stripTrailingSlashes (s : List Char) : List Char :=
  (s.reverse.dropWhile (fun c => c = '/')).reverse

/-- ASCII control byte test used by Go `net/url` (`stringContainsCTLByte`). -/
def isCtlChar (c : Char) : Bool := c.toNat < 32 || c.toNat = 127

/-- ASCII letter test (Go works on bytes; the URLs here are ASCII). -/
def isASCIIAlpha (c : Char) : Bool :=
  (97 ≤ c.toNat && c.toNat ≤ 122) || (65 ≤ c.toNat && c.toNat ≤ 90)

/-- ASCII digit test. -/
def isASCIIDigit (c : Char) : Bool := 48 ≤ c.toNat && c.toNat ≤ 57

/-- Hex digit test (Go `ishex`). -/
def isHexC (c : Char) : Bool :=
  isASCIIDigit c || (97 ≤ c.toNat && c.toNat ≤ 102) || (65 ≤ c.toNat && c.toNat ≤ 70)

/-- Hex digit value (Go `unhex`). -/
def hexVal (c : Char) : Nat :=
  if isASCIIDigit c then c.toNat - 48
  else if 97 ≤ c.toNat && c.toNat ≤ 102 then c.toNat - 97 + 10
  else if 65 ≤ c.toNat && c.toNat ≤ 70 then c.toNat - 65 + 10
  else 0

/-- Index of the first occurrence of `needle` as a sublist (Go `strings.Index`). -/
def subIdx (needle : List Char) : List Char → Option Nat
  | [] => if needle.isEmpty then some 0 else none
  | c :: cs =>
    if listStartsWith needle (c :: cs) then some 0
    else (subIdx needle cs).map (fun i => i + 1)

/-- Index of the last occurrence of a character (Go `strings.LastIndex` with a
    one-character needle). -/
def lastIdxOf (x : Char) : List Char → Option Nat
  | [] => none
  | c :: cs =>
    match lastIdxOf x cs with
    | some i => some (i + 1)
    | none => if c = x then some 0 else none

/-! ## Model of Go `net/url.Parse` (restricted to computing `u.Path`)

The repository's `getFileNamesFromURLs` calls `url.Parse` and then uses only
`u.Path` (and whether parsing failed).  The functions below model the Go
standard library's `net/url` parsing pipeline for ASCII input: fragment and
query splitting, scheme recognition, authority (userinfo/host) validation and
percent-unescaping of the path.  `none` models a non-nil Go error. -/

/-- Model of Go `net/url`'s `getScheme`.  `orig` is the whole input; the list
    argument is the not-yet-scanned suffix and the `Nat` the current index.
    Returns `none` for the "missing protocol scheme" error and
    `some (scheme, rest)` otherwise (`scheme = []` when the URL has no scheme). -/
def getSchemeGo (orig : List Char) : List Char → Nat → Option (List Char × List Char)
  | [], _ => some ([], orig)
  | c :: cs, i =>
    if isASCIIAlpha c then getSchemeGo orig cs (i + 1)
    else if isASCIIDigit c || c = '+' || c = '-' || c = '.' then
      if i = 0 then some ([], orig) else getSchemeGo orig cs (i + 1)
    else if c = ':' then
      if i = 0 then none else some (orig.take i, cs)
    else some ([], orig)

/-- Model of Go `net/url`'s `validOptionalPort`. -/
def validOptionalPort : List Char → Bool
  | [] => true
  | c :: cs => c = ':' && cs.all isASCIIDigit

/-- Characters Go's `shouldEscape(c, encodeHost)` accepts unescaped in a host. -/
def hostAllowedChar (c : Char) : Bool :=
  isASCIIAlpha c || isASCIIDigit c ||
  c = '-' || c = '_' || c = '.' || c = '~' ||
  c = '!' || c = '$' || c = '&' || c = squoteC ||
  c = '(' || c = ')' || c = '*' || c = '+' || c = ',' || c = ';' || c = '=' ||
  c = ':' || c = '[' || c = ']' || c = '<' || c = '>' || c = dquoteC

/-- Model of Go `unescape(s, encodeHost)`: validates characters and percent
    escapes of a host (escapes below 0x80 other than `%25` are rejected) and
    decodes the escapes. -/
def unescapeHost : List Char → Option (List Char)
  | [] => some []
  | c :: rest =>
    if c = '%' then
      match rest with
      | a :: b :: rest2 =>
        if isHexC a && isHexC b && (8 ≤ hexVal a || (a = '2' && b = '5')) then
          (unescapeHost rest2).map (fun r => Char.ofNat (16 * hexVal a + hexVal b) :: r)
        else none
      | _ => none
    else if c.toNat < 128 && !hostAllowedChar c then none
    else (unescapeHost rest).map (fun r => c :: r)

/-- Model of Go `unescape(s, encodeZone)` (used for RFC 6874 zone identifiers). -/
def unescapeZone : List Char → Option (List Char)
  | [] => some []
  | c :: rest =>
    if c = '%' then
      match rest with
      | a :: b :: rest2 =>
        if isHexC a && isHexC b then
          (unescapeZone rest2).map (fun r => Char.ofNat (16 * hexVal a + hexVal b) :: r)
        else none
      | _ => none
    else if c.toNat < 128 && !hostAllowedChar c then none
    else (unescapeZone rest).map (fun r => c :: r)

/-- Model of Go `unescape(s, encodePath)` as used by `URL.setPath`: validates
    that every `%` starts a two-hex-digit escape and decodes the escapes. -/
def unescapePath : List Char → Option (List Char)
  | [] => some []
  | c :: rest =>
    if c = '%' then
      match rest with
      | a :: b :: rest2 =>
        if isHexC a && isHexC b then
          (unescapePath rest2).map (fun r => Char.ofNat (16 * hexVal a + hexVal b) :: r)
        else none
      | _ => none
    else (unescapePath rest).map (fun r => c :: r)

/-- Escape well-formedness alone (Go `unescape` in the fragment and
    user/password modes, which impose no extra character restrictions). -/
def validEscapes : List Char → Bool
  | [] => true
  | c :: rest =>
    if c = '%' then
      match rest with
      | a :: b :: rest2 => isHexC a && isHexC b && validEscapes rest2
      | _ => false
    else validEscapes rest

/-- Characters Go's `validUserinfo` accepts. -/
def validUserinfoChar (c : Char) : Bool :=
  isASCIIAlpha c || isASCIIDigit c ||
  c = '-' || c = '.' || c = '_' || c = ':' || c = '~' ||
  c = '!' || c = '$' || c = '&' || c = squoteC ||
  c = '(' || c = ')' || c = '*' || c = '+' || c = ',' || c = ';' || c = '=' ||
  c = '%' || c = '@'

/-- Model of Go `net/url`'s `parseHost` (returns the decoded host, `none` on error). -/
def parseHost (s : List Char) : Option (List Char) :=
  if listStartsWith "[".data s then
    match lastIdxOf ']' s with
    | none => none
    | some i =>
      if validOptionalPort (s.drop (i + 1)) then
        match subIdx "%25".data (s.take i) with
        | some z =>
          match unescapeHost (s.take z), unescapeZone ((s.take i).drop z),
                unescapeHost (s.drop i) with
          | some h1, some h2, some h3 => some (h1 ++ h2 ++ h3)
          | _, _, _ => none
        | none => unescapeHost s
      else none
  else
    match lastIdxOf ':' s with
    | some i => if validOptionalPort (s.drop i) then unescapeHost s else none
    | none => unescapeHost s

/-- Model of Go `net/url`'s `parseAuthority`, reduced to host validation
    (the repository never reads the userinfo). -/
def parseAuthority (s : List Char) : Option (List Char) :=
  match lastIdxOf '@' s with
  | none => parseHost s
  | some i =>
    match parseHost (s.drop (i + 1)) with
    | none => none
    | some h =>
      let userinfo := s.take i
      if userinfo.all validUserinfoChar then
        match breakAtChar ':' userinfo with
        | (u, none) => if validEscapes u then some h else none
        | (u, some pw) => if validEscapes u && validEscapes pw then some h else none
      else none

/-- The authority-splitting and path-setting tail of Go `net/url`'s `parse`:
    when `rest` begins with `//` (and the URL is not a schemeless `///...`),
    the segment up to the next `/` is parsed as the authority and the
    remainder (starting at that `/`) becomes the path; otherwise all of
    `rest` does.  Returns the decoded `u.Path`. -/
def authPathPart (scheme rest : List Char) : Option (List Char) :=
  if (!scheme.isEmpty || !listStartsWith "///".data rest) && listStartsWith "//".data rest then
    let afterSS := rest.drop 2
    match breakAtChar '/' afterSS with
    | (auth, none) => (parseAuthority auth).bind (fun _ => unescapePath [])
    | (auth, some tail) => (parseAuthority auth).bind (fun _ => unescapePath ('/' :: tail))
  else unescapePath rest

/-- Model of Go `net/url`'s `parse(u, viaRequest := false)`, returning `u.Path`. -/
def parseNoFrag (u : List Char) : Option (List Char) :=
  if u.any isCtlChar then none
  else if u = "*".data then some "*".data
  else
    match getSchemeGo u u 0 with
    | none => none
    | some (scheme, afterScheme) =>
      let rest := (breakAtChar '?' afterScheme).1
      if !listStartsWith "/".data rest then
        if !scheme.isEmpty then some []
        else
          if ((breakAtChar '/' rest).1).contains ':' then none
          else authPathPart scheme rest
      else authPathPart scheme rest

/-- Model of Go `net/url.Parse` restricted to the `u.Path` field: the input is
    cut at the first `#`, the pre-fragment part is parsed, and the fragment's
    escapes are validated.  `none` models a non-nil error. -/
def urlParsePath (s : String) : Option (List Char) :=
  match breakAtChar '#' s.data with
  | (u, none) => parseNoFrag u
  | (u, some frag) =>
    match parseNoFrag u with
    | none => none
    | some p => if validEscapes frag then some p else none

/-! ## Model of Go `path.Base` and the filename derivation -/

/-- Model of Go `path.Base`. -/
def pathBase (p : List Char) : List Char :=
  if p.isEmpty then ".".data
  else
    let p1 := stripTrailingSlashes p
    if p1.isEmpty then "/".data
    else afterLastSlash p1

/-- Model of Go `strings.ReplaceAll(s, " ", "_")`. -/
def underscoreSpaces (s : List Char) : List Char :=
  s.map (fun c => if c = spaceC then '_' else c)

/-- Model of Go `strings.ToLower` for ASCII input. -/
def asciiToLower (s : List Char) : List Char := s.map Char.toLower

/-- Model of `getFileNamesFromURLs` (src/main.go lines 77-91): parse the URL,
    take `path.Base(u.Path)`, replace spaces with underscores; the empty
    string on a parse error.  This variant does not lowercase. -/
def getFileNamesFromURLs (urls : String) : String :=
  match urlParsePath urls with
  | none => ""
  | some p => String.mk (underscoreSpaces (pathBase p))

/-- Model of the `getFileNamesFromURLs` variant at src/main.go lines 618-629,
    which additionally applies `strings.ToLower` to the result. -/
def getFileNamesFromURLsLower (urls : String) : String :=
  match urlParsePath urls with
  | none => ""
  | some p => String.mk (asciiToLower (underscoreSpaces (pathBase p)))

/-! ## Model of the regex-based link extractor

`ExtractURLsFromHTMLFile` (src/main.go lines 43-74) matches
`(?:href|src)=["'](https?:\/\/|\/\/)?([^"']+)["']` with
`FindAllStringSubmatch` and, for each match, builds a full URL from the two
capture groups and keeps it when it contains ".pdf".  The functions below
implement exactly that matching: at a candidate position the regex requires
the literal `href=` or `src=`, one quote character, a maximal nonempty run of
non-quote characters (split by greedy preference into an optional
`https://`/`http://`/`//` group and a nonempty remainder) and a closing quote
character; `FindAll` scans positions left to right and resumes after each
match. -/

/-- The character class `[^"']` of the extraction regex. -/
def notQuote (c : Char) : Bool := !(c = dquoteC || c = squoteC)

/-- The URL the program builds from one match: group 1 is the scheme
    alternative (`https?://` by greedy preference, else `//`, else absent —
    absent also when taking it would leave group 2 empty), group 2 the rest
    of the run; `fullURL` is group1+group2 for an `http` prefix,
    `https://`+group2 for `//`, and group 2 alone otherwise. -/
def resolveRun (run : List Char) : List Char :=
  if listStartsWith "http://".data run || listStartsWith "https://".data run then run
  else if listStartsWith "//".data run && 2 < run.length then
    "https://".data ++ run.drop 2
  else run

/-- Attempt to match the extraction regex at the head of `cs`.  On success,
    returns the URL built from the capture groups and the total number of
    characters the match consumes. -/
def tryMatch (cs : List Char) : Option (String × Nat) :=
  let aLen : Option Nat :=
    if listStartsWith "href=".data cs then some 5
    else if listStartsWith "src=".data cs then some 4
    else none
  match aLen with
  | none => none
  | some n =>
    match cs.drop n with
    | [] => none
    | q :: cs2 =>
      if notQuote q then none
      else
        let run := cs2.takeWhile notQuote
        if run.isEmpty then none
        else if (cs2.drop run.length).isEmpty then none
        else some (String.mk (resolveRun run), n + 1 + run.length + 1)

/-- The scanning loop of `FindAllStringSubmatch` specialised to the
    extraction regex, fused with the program's loop body: `skip` characters
    are still part of the previous match; at `skip = 0` a match is attempted
    at the current position and on success the scan resumes after the
    consumed characters (matches do not overlap).  Keeps each match's full
    URL when it contains ".pdf" (`strings.Contains`, case-sensitive). -/
def scanPDF : List Char → Nat → List String
  | [], _ => []
  | _ :: cs, skip + 1 => scanPDF cs skip
  | c :: cs, 0 =>
    match tryMatch (c :: cs) with
    | some (u, k) =>
      (if listContainsSub ".pdf".data u.data then [u] else []) ++ scanPDF cs (k - 1)
    | none => scanPDF cs 0

/-- The same scan without the ".pdf" filter: the absolutised value of every
    regex match, in order. -/
def scanMatches : List Char → Nat → List String
  | [], _ => []
  | _ :: cs, skip + 1 => scanMatches cs skip
  | c :: cs, 0 =>
    match tryMatch (c :: cs) with
    | some (u, k) => u :: scanMatches cs (k - 1)
    | none => scanMatches cs 0

/-- Model of `ExtractURLsFromHTMLFile` (src/main.go lines 43-74) applied to
    the HTML content (the file read is outside the model). -/
def ExtractURLsFromHTML (content : String) : List String := scanPDF content.data 0

/-- The absolutised value of every href/src regex match in the content,
    before the ".pdf" filter. -/
def extractAllMatchedURLs (content : String) : List String := scanMatches content.data 0

/-! ## Model of the goquery-based extractor `getSDSLinks` -/

/-- An HTML element as the structural extractor sees it: a tag name and its
    attribute list. -/
structure HTag where
  name : String
  attrs : List (String × String)
deriving DecidableEq, Repr

/-- goquery `Selection.Attr`: the first binding of the attribute. -/
def attrLookup : List (String × String) → String → Option String
  | [], _ => none
  | (k, v) :: rest, key => if k = key then some v else attrLookup rest key

/-- Model of the per-anchor body of `getSDSLinks` (src/main.go lines
    403-419): keep an href when its lowercasing contains ".pdf", prepend
    `https:` to protocol-relative and the fixed base to root-relative hrefs,
    and keep only http/https results. -/
def resolveSDSHref (href : String) : Option String :=
  if listContainsSub ".pdf".data (asciiToLower href.data) then
    let h1 := if listStartsWith "//".data href.data then "https:" ++ href else href
    let h2 :=
      if listStartsWith "/".data h1.data then "https://www.chemicalguys.com" ++ h1 else h1
    if listStartsWith "http://".data h2.data || listStartsWith "https://".data h2.data then
      some h2
    else none
  else none

/-- Model of the extraction pass of `getSDSLinks` (src/main.go lines
    381-423); the network fetch and the goquery HTML parse are outside the
    model, so the input is the parsed document's element sequence, of which
    `Find("a")` keeps the anchors in document order. -/
def getSDSLinksModel (doc : List HTag) : List String :=
  (doc.filter (fun t => t.name = "a")).filterMap
    (fun t => (attrLookup t.attrs "href").bind resolveSDSHref)

/-- Render an attribute list as ` name="value"` pieces. -/
def renderAttrsChars : List (String × String) → List Char
  | [] => []
  | (k, v) :: rest =>
    spaceC :: k.data ++ '=' :: dquoteC :: v.data ++ dquoteC :: renderAttrsChars rest

/-- Render one element as `<name attr="value" ...>`. -/
def renderTagChars (t : HTag) : List Char :=
  '<' :: t.name.data ++ renderAttrsChars t.attrs ++ ['>']

/-- Render an element sequence as HTML text. -/
def renderHTMLChars : List HTag → List Char
  | [] => []
  | t :: ds => renderTagChars t ++ renderHTMLChars ds

/-- Render an element sequence as an HTML string (the common ground on which
    the two extractors can be compared). -/
def renderHTML (doc : List HTag) : String := String.mk (renderHTMLChars doc)

/-! ## Model of the filesystem and the download pipeline -/

/-- A filesystem entry: a regular file with its content, or a directory. -/
inductive FSEntry
  | file (content : String)
  | dir
deriving DecidableEq, Repr

/-- A flat model of the filesystem: an association list from paths to
    entries in which the first binding wins. -/
abbrev FS := List (String × FSEntry)

/-- `os.Stat`: the entry at a path, `none` when it does not exist. -/
def fsLookup : FS → String → Option FSEntry
  | [], _ => none
  | (p, e) :: rest, q => if p = q then some e else fsLookup rest q

/-- Create or overwrite the entry at a path. -/
def fsInsert (fs : FS) (p : String) (e : FSEntry) : FS := (p, e) :: fs

/-- Model of `fileExists` (src/main.go lines 98-104): `os.Stat` succeeds and
    the entry is not a directory. -/
def fileExists (fs : FS) (p : String) : Bool :=
  match fsLookup fs p with
  | some (FSEntry.file _) => true
  | _ => false

/-- `os.Stat` succeeds, i.e. the path exists (as a file or a directory). -/
def statExists (fs : FS) (p : String) : Bool := (fsLookup fs p).isSome

/-- The path exists and is a directory (model of `directoryExists`). -/
def dirExists (fs : FS) (p : String) : Bool :=
  match fsLookup fs p with
  | some FSEntry.dir => true
  | _ => false

/-- Split a character list on slashes (Go `strings.Split(s, "/")`). -/
def splitSlash : List Char → List (List Char)
  | [] => [[]]
  | c :: cs =>
    let r := splitSlash cs
    if c = '/' then [] :: r
    else
      match r with
      | s :: rest => (c :: s) :: rest
      | [] => [[c]]

/-- Join segments with slashes. -/
def joinSlash : List (List Char) → List Char
  | [] => []
  | [s] => s
  | s :: rest => s ++ '/' :: joinSlash rest

/-- Segment processing of Go `path.Clean`: empty and `.` segments vanish and
    `..` pops the previous segment (at the start it is dropped when the path
    is rooted and kept otherwise).  `acc` is the processed stack, most recent
    segment first. -/
def cleanSegs (rooted : Bool) : List (List Char) → List (List Char) → List (List Char)
  | [], acc => acc.reverse
  | seg :: rest, acc =>
    if seg.isEmpty || seg = ".".data then cleanSegs rooted rest acc
    else if seg = "..".data then
      match acc with
      | top :: acc2 =>
        if top = "..".data then cleanSegs rooted rest (seg :: top :: acc2)
        else cleanSegs rooted rest acc2
      | [] => if rooted then cleanSegs rooted rest [] else cleanSegs rooted rest [seg]
    else cleanSegs rooted rest (seg :: acc)

/-- Model of Go `path.Clean` via segment processing. -/
def pathClean (p : String) : String :=
  if p.data.isEmpty then "."
  else
    let rooted := listStartsWith "/".data p.data
    let outSegs := cleanSegs rooted (splitSlash p.data) []
    if outSegs.isEmpty then (if rooted then "/" else ".")
    else (if rooted then "/" else "") ++ String.mk (joinSlash outSegs)

/-- Model of Go `path.Join` on two elements (empty elements are dropped and
    the joined path is cleaned). -/
def pathJoin (a b : String) : String :=
  if a.data.isEmpty && b.data.isEmpty then ""
  else if a.data.isEmpty then pathClean b
  else if b.data.isEmpty then pathClean a
  else pathClean (a ++ "/" ++ b)

/-- The slash-boundary prefixes of a path, shortest first, the path itself
    last: the directories `os.MkdirAll` ensures exist. -/
def ancestorsOf (p : String) : List String :=
  let segs := splitSlash p.data
  (List.range segs.length).map (fun i => String.mk (joinSlash (segs.take (i + 1))))

/-- Ensure each directory of the list exists; fail when one exists as a
    regular file. -/
def mkdirAllGo (fs : FS) : List String → Option FS
  | [] => some fs
  | d :: rest =>
    match fsLookup fs d with
    | some (FSEntry.file _) => none
    | some FSEntry.dir => mkdirAllGo fs rest
    | none => mkdirAllGo (fsInsert fs d FSEntry.dir) rest

/-- Model of `os.MkdirAll`: recursively ensure the directory and its parents
    exist; creating an existing directory is not an error; a prefix existing
    as a regular file is. -/
def mkdirAll (fs : FS) (p : String) : Option FS := mkdirAllGo fs (ancestorsOf p)

/-- The directory component of a path (characters before the last slash);
    `none` when the path has no slash (it is relative to the working
    directory, which always exists). -/
def parentDirOf (p : String) : Option String :=
  match lastIdxOf '/' p.data with
  | none => none
  | some i => some (String.mk (p.data.take i))

/-- Model of `os.Create`: truncates or creates the file; fails when the path
    is an existing directory or its parent directory does not exist. -/
def createFile (fs : FS) (p : String) : Option FS :=
  match fsLookup fs p with
  | some FSEntry.dir => none
  | _ =>
    match parentDirOf p with
    | none => some (fsInsert fs p (FSEntry.file ""))
    | some d => if dirExists fs d then some (fsInsert fs p (FSEntry.file "")) else none

/-- An HTTP response as the download model sees it: the status code, the
    body bytes the server delivers, and whether the body stream completes
    (`bodyComplete = false` models an `io.Copy` failure mid-stream after
    `bodyData` was already written to the file). -/
structure HTTPResponse where
  statusCode : Nat
  bodyData : String
  bodyComplete : Bool
deriving DecidableEq, Repr

/-- The outcome of `http.Get`: a transport error or a response. -/
inductive HTTPResult
  | netError
  | response (r : HTTPResponse)
deriving DecidableEq, Repr

/-- Observable side effects of one `downloadPDF` call, in order: an HTTP GET,
    an `os.MkdirAll`, an `os.Create`, a body write. -/
inductive Ev
  | get (url : String)
  | mkdirEv (dir : String)
  | createEv (p : String)
  | writeEv (p : String) (data : String)
deriving DecidableEq, Repr

/-- The outcome of one `downloadPDF` call.  In Go, `skipped` and `downloaded`
    both return a nil error; they are observably distinct through the log
    line "File ... already exists, skipping download."; the error outcomes
    carry the distinct `fmt.Errorf` messages of src/main.go lines 116-148. -/
inductive DLResult
  | skipped
  | downloaded
  | errNetwork
  | errStatusCode (code : Nat)
  | errCreatingFolder
  | errCreatingFile
  | errSavingFile
deriving DecidableEq, Repr

/-- The create-and-copy tail of `downloadPDF` (src/main.go lines 135-148):
    create the local file, then stream the body into it; report the
    "error saving PDF" failure when the copy does not complete (the partial
    file remains). -/
def downloadBody (r : HTTPResponse) (fullPath : String) (fs : FS) (evs : List Ev) :
    DLResult × FS × List Ev :=
  match createFile fs fullPath with
  | none => (DLResult.errCreatingFile, fs, evs ++ [Ev.createEv fullPath])
  | some fs1 =>
    let fs2 := fsInsert fs1 fullPath (FSEntry.file r.bodyData)
    if r.bodyComplete then
      (DLResult.downloaded, fs2, evs ++ [Ev.createEv fullPath, Ev.writeEv fullPath r.bodyData])
    else
      (DLResult.errSavingFile, fs2, evs ++ [Ev.createEv fullPath, Ev.writeEv fullPath r.bodyData])

/-- Model of `downloadPDF` (src/main.go lines 106-149): derive the filename,
    skip when the file already exists, perform the GET, check the status,
    ensure the folder exists when `os.Stat` says it does not, create the file
    and stream the body.  Returns the outcome, the resulting filesystem and
    the ordered side-effect trace. -/
def downloadPDF (http : String → HTTPResult) (pdfURL folder : String) (fs : FS) :
    DLResult × FS × List Ev :=
  let fileName := getFileNamesFromURLs pdfURL
  let fullPath := pathJoin folder fileName
  if fileExists fs fullPath then (DLResult.skipped, fs, [])
  else
    match http pdfURL with
    | HTTPResult.netError => (DLResult.errNetwork, fs, [Ev.get pdfURL])
    | HTTPResult.response r =>
      if r.statusCode ≠ 200 then (DLResult.errStatusCode r.statusCode, fs, [Ev.get pdfURL])
      else
        if statExists fs folder then downloadBody r fullPath fs [Ev.get pdfURL]
        else
          match mkdirAll fs folder with
          | none => (DLResult.errCreatingFolder, fs, [Ev.get pdfURL, Ev.mkdirEv folder])
          | some fs1 => downloadBody r fullPath fs1 [Ev.get pdfURL, Ev.mkdirEv folder]

/-- Model of the download loop of `main` (src/main.go lines 181-188): each
    link is attempted in order, a failure is logged and the loop continues
    with the next link.  Returns the per-link outcomes in order, the final
    filesystem and the concatenated side-effect trace. -/
def mainLoop (http : String → HTTPResult) (folder : String) :
    List String → FS → List (String × DLResult) × FS × List Ev
  | [], fs => ([], fs, [])
  | l :: ls, fs =>
    let r := downloadPDF http l folder fs
    let rest := mainLoop http folder ls r.2.1
    ((l, r.1) :: rest.1, rest.2.1, r.2.2 ++ rest.2.2)

/-! ## Concrete inputs used by the claims -/

/-- The HTML of the extraction-correctness example (spec §8): the four tags
    the claim names, in order. -/
def specHTML : String :=
  "<a href=\"https://x.com/a.pdf\"><img src=\"//cdn.x.com/b.PDF?query=1\"><a href=\"/rel/c.pdf\"><a href=\"/about\">"

/-- The filename-derivation example URL of spec §8. -/
def specFileURL : String := "https://example.com/docs/My File.pdf?v=2"

/-- A double-quoted lower-case `href` document. -/
def hrefLowerDoc : String := "<a href=\"x.pdf\">"

/-- The same document with the attribute name upper-cased. -/
def hrefUpperDoc : String := "<a HREF=\"x.pdf\">"

/-- A single-quoted lower-case `href` document. -/
def hrefSingleQuoteDoc : String := "<a href=" ++ sqS ++ "x.pdf" ++ sqS ++ ">"

/-- A double-quoted lower-case `src` document. -/
def srcLowerDoc : String := "<img src=\"x.pdf\">"

/-- The same document with the attribute name capitalised. -/
def srcCapDoc : String := "<img Src=\"x.pdf\">"

/-- A single-quoted lower-case `src` document. -/
def srcSingleQuoteDoc : String := "<img src=" ++ sqS ++ "x.pdf" ++ sqS ++ ">"

/-! ## Claim C1 -/

/-- C1 (counterexample): on the HTML containing the claim's four tags, the
    extractor does not return exactly the two absolute URLs the claim names:
    the case-sensitive ".pdf" containment filter drops the resolved
    `https://cdn.x.com/b.PDF?query=1` (upper-case extension), while the
    relative `/rel/c.pdf` is returned. -/
theorem C1_counterexample :
    ExtractURLsFromHTML specHTML ≠
      ["https://x.com/a.pdf", "https://cdn.x.com/b.PDF?query=1"] := by decide

/-- C1 (amended): on the HTML containing the claim's four tags the extractor
    returns the absolute `https://x.com/a.pdf` followed by the relative
    `/rel/c.pdf` passed through unresolved.  The protocol-relative link is
    resolved to `https://cdn.x.com/b.PDF?query=1` by the matcher (second
    element of the unfiltered match list) but is excluded by the
    case-sensitive ".pdf" filter, and `/about` is excluded for not
    containing ".pdf". -/
theorem C1_extraction :
    ExtractURLsFromHTML specHTML = ["https://x.com/a.pdf", "/rel/c.pdf"] ∧
    extractAllMatchedURLs specHTML =
      ["https://x.com/a.pdf", "https://cdn.x.com/b.PDF?query=1", "/rel/c.pdf", "/about"] := by
  decide

/-! ## Claim C5 -/

/-- C5 (counterexample): `HREF=` is not matched the same as `href=`: the
    extraction regex is compiled without a case-insensitivity flag, so the
    upper-case attribute yields no match while the lower-case one yields
    "x.pdf". -/
theorem C5_counterexample :
    ExtractURLsFromHTML hrefUpperDoc ≠ ExtractURLsFromHTML hrefLowerDoc := by decide

/-- C5 (amended): the extractor matches `href=` and `src=` attribute
    assignments with either single or double quotes around the value, but
    the attribute-name match is case-sensitive: `HREF=` and `Src=` are not
    matched. -/
theorem C5_quote_styles_and_case :
    ExtractURLsFromHTML hrefLowerDoc = ["x.pdf"] ∧
    ExtractURLsFromHTML hrefSingleQuoteDoc = ["x.pdf"] ∧
    ExtractURLsFromHTML srcLowerDoc = ["x.pdf"] ∧
    ExtractURLsFromHTML srcSingleQuoteDoc = ["x.pdf"] ∧
    ExtractURLsFromHTML hrefUpperDoc = [] ∧
    ExtractURLsFromHTML srcCapDoc = [] := by decide

/-! ## Claim C3 -/

/-- C3: when a regular file already exists at folder/derived-filename,
    downloadPDF returns the skip outcome with no network call (empty effect
    trace) and an unchanged filesystem, and that outcome is distinct from
    the downloaded-now outcome. -/
theorem C3_skip_existing (http : String → HTTPResult) (url folder : String) (fs : FS)
    (h : fileExists fs (pathJoin folder (getFileNamesFromURLs url)) = true) :
    downloadPDF http url folder fs = (DLResult.skipped, fs, []) ∧
      DLResult.skipped ≠ DLResult.downloaded := by
  refine ⟨?_, by decide⟩
  unfold downloadPDF
  simp only [h, if_true]

/-- C3 (witness): a filesystem already holding PDFs/a.pdf makes downloadPDF
    skip, touching neither network nor filesystem. -/
theorem C3_witness :
    downloadPDF (fun _ => HTTPResult.netError) "https://x.com/a.pdf" "PDFs"
        [("PDFs/a.pdf", FSEntry.file "old")] =
      (DLResult.skipped, [("PDFs/a.pdf", FSEntry.file "old")], []) :=
  (C3_skip_existing (fun _ => HTTPResult.netError) "https://x.com/a.pdf" "PDFs"
    [("PDFs/a.pdf", FSEntry.file "old")] (by decide)).1

/-! ## Claim C10 -/

/-- C10: when the destination file does not exist and the GET fails (network
    error or non-200 status), downloadPDF returns the corresponding error
    with the filesystem unchanged and an effect trace containing only the
    GET: no folder is created and no file is created or written. -/
theorem C10_failed_get_changes_nothing (http : String → HTTPResult)
    (url folder : String) (fs : FS)
    (hne : fileExists fs (pathJoin folder (getFileNamesFromURLs url)) = false)
    (hfail : http url = HTTPResult.netError ∨
      ∃ r, http url = HTTPResult.response r ∧ r.statusCode ≠ 200) :
    ∃ res, downloadPDF http url folder fs = (res, fs, [Ev.get url]) ∧
      (res = DLResult.errNetwork ∨ ∃ c, res = DLResult.errStatusCode c ∧ c ≠ 200) := by
  rcases hfail with h | ⟨r, hr, hc⟩
  · refine ⟨DLResult.errNetwork, ?_, Or.inl rfl⟩
    unfold downloadPDF
    simp only [hne, if_false, h, Bool.false_eq_true]
  · refine ⟨DLResult.errStatusCode r.statusCode, ?_, Or.inr ⟨r.statusCode, rfl, hc⟩⟩
    unfold downloadPDF
    simp [hne, hr, hc]

/-- C10 (witness): a 404 response on a fresh filesystem yields the status
    error, leaves the filesystem empty and performs exactly one GET. -/
theorem C10_witness :
    ∃ res, downloadPDF (fun _ => HTTPResult.response ⟨404, "", true⟩)
        "https://x.com/a.pdf" "PDFs" [] = (res, [], [Ev.get "https://x.com/a.pdf"]) ∧
      (res = DLResult.errNetwork ∨ ∃ c, res = DLResult.errStatusCode c ∧ c ≠ 200) :=
  C10_failed_get_changes_nothing (fun _ => HTTPResult.response ⟨404, "", true⟩)
    "https://x.com/a.pdf" "PDFs" [] (by decide)
    (Or.inr ⟨⟨404, "", true⟩, rfl, by decide⟩)

/-! ## Claim C7 -/

/-- An HTTP oracle returning 404 for one URL and a complete 200 body for all
    others. -/
def http404On (bad : String) : String → HTTPResult :=
  fun u =>
    if u = bad then HTTPResult.response ⟨404, "", true⟩
    else HTTPResult.response ⟨200, "DATA", true⟩

/-- C7: the batch loop attempts every link independently of earlier
    failures: the per-link outcome list always pairs each input link, in
    order, with its own outcome; and on the concrete three-link batch whose
    second link returns HTTP 404, items one and three are downloaded and
    item two alone is reported failed — no early termination. -/
theorem C7_batch_isolation :
    (∀ (http : String → HTTPResult) (folder : String) (links : List String) (fs : FS),
        (mainLoop http folder links fs).1.map Prod.fst = links) ∧
    (mainLoop (http404On "https://x.com/b.pdf") "PDFs"
        ["https://x.com/a.pdf", "https://x.com/b.pdf", "https://x.com/c.pdf"] []).1 =
      [("https://x.com/a.pdf", DLResult.downloaded),
       ("https://x.com/b.pdf", DLResult.errStatusCode 404),
       ("https://x.com/c.pdf", DLResult.downloaded)] := by
  constructor
  · intro http folder links fs
    induction links generalizing fs with
    | nil => rfl
    | cons l ls ih => simp [mainLoop, ih]
  · decide

/-! ## Claim C8 -/

/-- The create-and-copy tail reports the downloaded outcome only when the
    body stream completed, in which case the destination file holds the full
    body. -/
theorem downloadBody_downloaded {r : HTTPResponse} {fp : String} {fs : FS} {evs : List Ev}
    {res : DLResult} {fs2 : FS} {tr : List Ev}
    (h : downloadBody r fp fs evs = (res, fs2, tr)) (hres : res = DLResult.downloaded) :
    r.bodyComplete = true ∧ fsLookup fs2 fp = some (FSEntry.file r.bodyData) := by
  subst hres
  unfold downloadBody at h
  split at h
  · simp at h
  · rename_i fs1 hc
    by_cases hb : r.bodyComplete = true
    · simp only [hb, if_true, Prod.mk.injEq] at h
      refine ⟨hb, ?_⟩
      rw [← h.2.1]
      simp [fsInsert, fsLookup]
    · simp only [hb, if_false] at h
      simp at h

/-- C8: downloadPDF reports the downloaded outcome only when the GET
    returned a 200 response whose body stream completed, and then the
    destination file holds the full body; a copy that fails mid-stream is
    reported as an error, never as success (the partial file remains on
    disk). -/
theorem C8_success_only_with_full_body (http : String → HTTPResult)
    (url folder : String) (fs : FS) (res : DLResult) (fs2 : FS) (tr : List Ev)
    (h : downloadPDF http url folder fs = (res, fs2, tr))
    (hres : res = DLResult.downloaded) :
    ∃ r, http url = HTTPResult.response r ∧ r.statusCode = 200 ∧ r.bodyComplete = true ∧
      fsLookup fs2 (pathJoin folder (getFileNamesFromURLs url)) =
        some (FSEntry.file r.bodyData) := by
  subst hres
  unfold downloadPDF at h
  dsimp only at h
  by_cases hex : fileExists fs (pathJoin folder (getFileNamesFromURLs url)) = true
  · rw [if_pos hex] at h; simp at h
  · rw [if_neg hex] at h
    cases hg : http url with
    | netError => rw [hg] at h; simp at h
    | response r =>
      rw [hg] at h
      refine ⟨r, rfl, ?_⟩
      rw [show (match HTTPResult.response r with
            | HTTPResult.netError => (DLResult.errNetwork, fs, [Ev.get url])
            | HTTPResult.response r =>
              if r.statusCode ≠ 200 then (DLResult.errStatusCode r.statusCode, fs, [Ev.get url])
              else
                if statExists fs folder = true then
                  downloadBody r (pathJoin folder (getFileNamesFromURLs url)) fs [Ev.get url]
                else
                  match mkdirAll fs folder with
                  | none => (DLResult.errCreatingFolder, fs, [Ev.get url, Ev.mkdirEv folder])
                  | some fs1 =>
                    downloadBody r (pathJoin folder (getFileNamesFromURLs url)) fs1
                      [Ev.get url, Ev.mkdirEv folder]) =
            (if r.statusCode ≠ 200 then (DLResult.errStatusCode r.statusCode, fs, [Ev.get url])
              else
                if statExists fs folder = true then
                  downloadBody r (pathJoin folder (getFileNamesFromURLs url)) fs [Ev.get url]
                else
                  match mkdirAll fs folder with
                  | none => (DLResult.errCreatingFolder, fs, [Ev.get url, Ev.mkdirEv folder])
                  | some fs1 =>
                    downloadBody r (pathJoin folder (getFileNamesFromURLs url)) fs1
                      [Ev.get url, Ev.mkdirEv folder]) from rfl] at h
      by_cases hco : r.statusCode = 200
      · rw [if_neg (not_not_intro hco)] at h
        refine ⟨hco, ?_⟩
        by_cases hse : statExists fs folder = true
        · rw [if_pos hse] at h
          exact downloadBody_downloaded h rfl
        · rw [if_neg hse] at h
          cases hm : mkdirAll fs folder with
          | none => rw [hm] at h; simp at h
          | some fs1 =>
            rw [hm] at h
            exact downloadBody_downloaded h rfl
      · rw [if_pos hco] at h
        simp at h

/-- C8 (witness): a complete 200 download reports downloaded and the file
    holds the body. -/
theorem C8_witness :
    ∃ r, (fun _ : String => HTTPResult.response ⟨200, "DATA", true⟩) "https://x.com/a.pdf" =
        HTTPResult.response r ∧ r.statusCode = 200 ∧ r.bodyComplete = true ∧
      fsLookup [("PDFs/a.pdf", FSEntry.file "DATA"), ("PDFs/a.pdf", FSEntry.file ""),
          ("PDFs", FSEntry.dir)]
        (pathJoin "PDFs" (getFileNamesFromURLs "https://x.com/a.pdf")) =
        some (FSEntry.file r.bodyData) :=
  C8_success_only_with_full_body (fun _ => HTTPResult.response ⟨200, "DATA", true⟩)
    "https://x.com/a.pdf" "PDFs" [] DLResult.downloaded
    [("PDFs/a.pdf", FSEntry.file "DATA"), ("PDFs/a.pdf", FSEntry.file ""), ("PDFs", FSEntry.dir)]
    [Ev.get "https://x.com/a.pdf", Ev.mkdirEv "PDFs", Ev.createEv "PDFs/a.pdf",
      Ev.writeEv "PDFs/a.pdf" "DATA"]
    (by decide) rfl

/-! ## Claim C6 -/

/-- Looking up through an insertion. -/
theorem fsLookup_insert (fs : FS) (p : String) (e : FSEntry) (q : String) :
    fsLookup (fsInsert fs p e) q = if p = q then some e else fsLookup fs q := rfl

/-- `mkdirAllGo` never destroys an existing directory. -/
theorem dirExists_mkdirAllGo (ds : List String) (fs fs' : FS) (d : String)
    (h : dirExists fs d = true) (hm : mkdirAllGo fs ds = some fs') :
    dirExists fs' d = true := by
  induction ds generalizing fs with
  | nil =>
    unfold mkdirAllGo at hm
    cases hm
    exact h
  | cons d2 rest ih =>
    unfold mkdirAllGo at hm
    split at hm
    · simp at hm
    · exact ih fs h hm
    · refine ih (fsInsert fs d2 FSEntry.dir) ?_ hm
      by_cases he : d2 = d
      · simp [dirExists, fsLookup_insert, he]
      · simpa [dirExists, fsLookup_insert, he] using h

/-- Every directory of the list exists after a successful `mkdirAllGo`. -/
theorem mkdirAllGo_creates (ds : List String) (fs fs' : FS)
    (hm : mkdirAllGo fs ds = some fs') : ∀ d ∈ ds, dirExists fs' d = true := by
  induction ds generalizing fs with
  | nil => intro d hd; cases hd
  | cons d2 rest ih =>
    intro d hd
    unfold mkdirAllGo at hm
    split at hm
    · simp at hm
    · rename_i hdir
      rcases List.mem_cons.mp hd with rfl | hdr
      · exact dirExists_mkdirAllGo rest fs fs' d (by simp [dirExists, hdir]) hm
      · exact ih fs hm d hdr
    · rename_i hnone
      rcases List.mem_cons.mp hd with rfl | hdr
      · exact dirExists_mkdirAllGo rest _ fs' d (by simp [dirExists, fsLookup_insert]) hm
      · exact ih _ hm d hdr

/-- `splitSlash` never returns the empty list. -/
theorem splitSlash_ne_nil (cs : List Char) : splitSlash cs ≠ [] := by
  cases cs with
  | nil => simp [splitSlash]
  | cons c cs =>
    unfold splitSlash
    by_cases hc : c = '/'
    · simp [hc]
    · simp only [hc, if_false]
      split
      · simp
      · simp

/-- Joining the segments of a split gives back the original characters. -/
theorem joinSlash_splitSlash (cs : List Char) : joinSlash (splitSlash cs) = cs := by
  induction cs with
  | nil => rfl
  | cons c cs ih =>
    unfold splitSlash
    by_cases hc : c = '/'
    · subst hc
      rw [if_pos rfl]
      rcases hsp : splitSlash cs with _ | ⟨s, rest⟩
      · exact absurd hsp (splitSlash_ne_nil cs)
      · have hj : joinSlash ([] :: s :: rest) = '/' :: joinSlash (s :: rest) := rfl
        rw [hj, ← hsp, ih]
    · simp only [hc, if_false]
      rcases hsp : splitSlash cs with _ | ⟨s, rest⟩
      · exact absurd hsp (splitSlash_ne_nil cs)
      · rw [hsp] at ih
        cases rest with
        | nil => simpa [joinSlash] using ih
        | cons s2 rest2 => simpa [joinSlash] using ih

/-- A path is among its own slash-boundary prefixes. -/
theorem mem_ancestorsOf_self (p : String) : p ∈ ancestorsOf p := by
  unfold ancestorsOf
  have hlen : 0 < (splitSlash p.data).length :=
    List.length_pos.mpr (splitSlash_ne_nil p.data)
  refine List.mem_map.mpr ⟨(splitSlash p.data).length - 1, ?_, ?_⟩
  · exact List.mem_range.mpr (Nat.sub_lt hlen Nat.one_pos)
  · rw [Nat.sub_add_cancel hlen, List.take_length, joinSlash_splitSlash]

/-- A successful `mkdirAll` leaves the requested directory in place. -/
theorem mkdirAll_creates (fs fs' : FS) (p : String) (hm : mkdirAll fs p = some fs') :
    dirExists fs' p = true :=
  mkdirAllGo_creates (ancestorsOf p) fs fs' hm p (mem_ancestorsOf_self p)

/-- C6 (counterexample): with the destination file absent, the destination
    folder absent, and the server answering 404, downloadPDF performs the
    GET (the trace records it) yet the resulting filesystem still lacks the
    folder: the folder is not ensured before the blocking GET — the code
    performs the GET and the status check first. -/
theorem C6_counterexample :
    downloadPDF (fun _ => HTTPResult.response ⟨404, "", true⟩)
        "https://x.com/a.pdf" "PDFs" [] =
      (DLResult.errStatusCode 404, [], [Ev.get "https://x.com/a.pdf"]) ∧
    dirExists [] "PDFs" = false := by decide

/-- C6 (amended): downloadPDF performs the GET first; when the destination
    file is absent and the response is 200, it then ensures the destination
    folder — creating it recursively when `os.Stat` reports it missing, with
    the created directory present from that point on (first conjunct), and
    reusing a present folder without error and without a mkdir call (second
    conjunct) — and only afterwards creates and writes the file, as the
    ordered effect traces show. -/
theorem C6_folder_after_get_before_write :
    (∀ (http : String → HTTPResult) (url folder : String) (fs : FS) (r : HTTPResponse)
        (fs1 fs2 : FS),
      fileExists fs (pathJoin folder (getFileNamesFromURLs url)) = false →
      http url = HTTPResult.response r → r.statusCode = 200 →
      fsLookup fs folder = none →
      mkdirAll fs folder = some fs1 →
      createFile fs1 (pathJoin folder (getFileNamesFromURLs url)) = some fs2 →
      downloadPDF http url folder fs =
        ((if r.bodyComplete then DLResult.downloaded else DLResult.errSavingFile),
          fsInsert fs2 (pathJoin folder (getFileNamesFromURLs url)) (FSEntry.file r.bodyData),
          [Ev.get url, Ev.mkdirEv folder,
            Ev.createEv (pathJoin folder (getFileNamesFromURLs url)),
            Ev.writeEv (pathJoin folder (getFileNamesFromURLs url)) r.bodyData]) ∧
        dirExists fs1 folder = true) ∧
    (∀ (http : String → HTTPResult) (url folder : String) (fs : FS) (r : HTTPResponse)
        (fs2 : FS),
      fileExists fs (pathJoin folder (getFileNamesFromURLs url)) = false →
      http url = HTTPResult.response r → r.statusCode = 200 →
      fsLookup fs folder = some FSEntry.dir →
      createFile fs (pathJoin folder (getFileNamesFromURLs url)) = some fs2 →
      downloadPDF http url folder fs =
        ((if r.bodyComplete then DLResult.downloaded else DLResult.errSavingFile),
          fsInsert fs2 (pathJoin folder (getFileNamesFromURLs url)) (FSEntry.file r.bodyData),
          [Ev.get url,
            Ev.createEv (pathJoin folder (getFileNamesFromURLs url)),
            Ev.writeEv (pathJoin folder (getFileNamesFromURLs url)) r.bodyData])) := by
  constructor
  · intro http url folder fs r fs1 fs2 hne hr h200 hfold hmk hcf
    refine ⟨?_, mkdirAll_creates fs fs1 folder hmk⟩
    unfold downloadPDF
    dsimp only
    rw [if_neg (by simp [hne])]
    rw [hr]
    have hst : statExists fs folder = false := by simp [statExists, hfold]
    by_cases hb : r.bodyComplete = true <;>
      simp [h200, hst, hmk, downloadBody, hcf, hb]
  · intro http url folder fs r fs2 hne hr h200 hfold hcf
    unfold downloadPDF
    dsimp only
    rw [if_neg (by simp [hne])]
    rw [hr]
    have hst : statExists fs folder = true := by simp [statExists, hfold]
    by_cases hb : r.bodyComplete = true <;>
      simp [h200, hst, downloadBody, hcf, hb]

/-- C6 (witness): a missing folder is created (recursively) before the file
    write on the first 200 download, and a second download into the now
    existing folder proceeds without a mkdir call and without error. -/
theorem C6_witness :
    (downloadPDF (fun _ => HTTPResult.response ⟨200, "DATA", true⟩)
        "https://x.com/a.pdf" "PDFs" [] =
      (DLResult.downloaded,
        fsInsert [("PDFs/a.pdf", FSEntry.file ""), ("PDFs", FSEntry.dir)] "PDFs/a.pdf"
          (FSEntry.file "DATA"),
        [Ev.get "https://x.com/a.pdf", Ev.mkdirEv "PDFs", Ev.createEv "PDFs/a.pdf",
          Ev.writeEv "PDFs/a.pdf" "DATA"]) ∧
      dirExists [("PDFs", FSEntry.dir)] "PDFs" = true) ∧
    downloadPDF (fun _ => HTTPResult.response ⟨200, "DATA", true⟩)
        "https://x.com/b.pdf" "PDFs" [("PDFs", FSEntry.dir)] =
      (DLResult.downloaded,
        fsInsert [("PDFs/b.pdf", FSEntry.file ""), ("PDFs", FSEntry.dir)] "PDFs/b.pdf"
          (FSEntry.file "DATA"),
        [Ev.get "https://x.com/b.pdf", Ev.createEv "PDFs/b.pdf",
          Ev.writeEv "PDFs/b.pdf" "DATA"]) := by
  constructor
  · have h := C6_folder_after_get_before_write.1
      (fun _ => HTTPResult.response ⟨200, "DATA", true⟩) "https://x.com/a.pdf" "PDFs" []
      ⟨200, "DATA", true⟩ [("PDFs", FSEntry.dir)]
      [("PDFs/a.pdf", FSEntry.file ""), ("PDFs", FSEntry.dir)]
      (by decide) rfl rfl (by decide) (by decide) (by decide)
    simpa using h
  · have h := C6_folder_after_get_before_write.2
      (fun _ => HTTPResult.response ⟨200, "DATA", true⟩) "https://x.com/b.pdf" "PDFs"
      [("PDFs", FSEntry.dir)] ⟨200, "DATA", true⟩
      [("PDFs/b.pdf", FSEntry.file ""), ("PDFs", FSEntry.dir)]
      (by decide) rfl rfl (by decide) (by decide)
    simpa using h

/-! ## Claim C4 -/

/-- Model of Go `strings.HasSuffix` on character lists. -/
def listEndsWithL (suf s : List Char) : Bool := listStartsWith suf.reverse s.reverse

/-- The fused extraction scan equals the unfiltered match scan followed by
    the ".pdf" containment filter. -/
theorem scanPDF_eq_filter (cs : List Char) :
    ∀ n, scanPDF cs n =
      (scanMatches cs n).filter (fun u => listContainsSub ".pdf".data u.data) := by
  induction cs with
  | nil => intro n; rfl
  | cons c cs ih =>
    intro n
    cases n with
    | succ m => exact ih m
    | zero =>
      unfold scanPDF scanMatches
      cases htm : tryMatch (c :: cs) with
      | none => simpa using ih 0
      | some uk =>
        obtain ⟨u, k⟩ := uk
        rw [List.filter_cons]
        cases hp : listContainsSub ".pdf".data u.data <;> simp [hp, ih (k - 1)]

/-- C4: among the attribute values the regex matches, the extractor keeps
    exactly those whose absolutised value contains the literal substring
    ".pdf" (first conjunct), so every output URL contains ".pdf" (second
    conjunct); the test is containment, not a suffix check: a URL whose
    ".pdf" occurs only in a query parameter qualifies even though it does
    not end in ".pdf" (last two conjuncts). -/
theorem C4_substring_containment_filter :
    (∀ s : String, ExtractURLsFromHTML s =
        (extractAllMatchedURLs s).filter (fun u => listContainsSub ".pdf".data u.data)) ∧
    (∀ s : String, ∀ u ∈ ExtractURLsFromHTML s, listContainsSub ".pdf".data u.data = true) ∧
    ExtractURLsFromHTML "<a href=\"https://x.com/dl?doc=a.pdf&v=2\">" =
      ["https://x.com/dl?doc=a.pdf&v=2"] ∧
    listEndsWithL ".pdf".data "https://x.com/dl?doc=a.pdf&v=2".data = false := by
  refine ⟨fun s => scanPDF_eq_filter s.data 0, ?_, by decide, by decide⟩
  intro s u hu
  have h := scanPDF_eq_filter s.data 0
  rw [show ExtractURLsFromHTML s = scanPDF s.data 0 from rfl, h] at hu
  exact (List.mem_filter.mp hu).2

/-- C4 (witness): the membership conjunct applied to a concrete document and
    output URL. -/
theorem C4_witness : listContainsSub ".pdf".data "x.pdf".data = true :=
  C4_substring_containment_filter.2.1 "<a href=\"x.pdf\">" "x.pdf" (by decide)

/-! ## Claim C9 -/

/-- A prefix test succeeds exactly on extensions of the prefix. -/
theorem listStartsWith_iff (pre : List Char) :
    ∀ s, listStartsWith pre s = true ↔ ∃ t, s = pre ++ t := by
  induction pre with
  | nil => intro s; simp [listStartsWith]
  | cons p ps ih =>
    intro s
    cases s with
    | nil => simp [listStartsWith]
    | cons c cs =>
      simp only [listStartsWith, Bool.and_eq_true, decide_eq_true_eq, ih,
        List.cons_append, List.cons.injEq]
      constructor
      · rintro ⟨rfl, t, rfl⟩
        exact ⟨t, rfl, rfl⟩
      · rintro ⟨t, rfl, rfl⟩
        exact ⟨rfl, t, rfl⟩

/-- `takeWhile` walks through a fully satisfying prefix. -/
theorem takeWhile_append_all (q : Char → Bool) (xs ys : List Char)
    (h : ∀ c ∈ xs, q c = true) :
    (xs ++ ys).takeWhile q = xs ++ ys.takeWhile q := by
  induction xs with
  | nil => rfl
  | cons x xs ih =>
    simp only [List.cons_append, List.takeWhile_cons, h x (by simp), if_true]
    rw [ih (fun c hc => h c (by simp [hc]))]

/-- `scanPDF` with a positive skip count ignores exactly that many characters. -/
theorem scanPDF_skip : ∀ (as bs : List Char), scanPDF (as ++ bs) as.length = scanPDF bs 0
  | [], _ => rfl
  | _ :: as, bs => scanPDF_skip as bs

/-- A character that opens neither `href=` nor `src=` cannot start a match. -/
theorem tryMatch_head_mismatch (c : Char) (cs : List Char) (hh : c ≠ 'h') (hs : c ≠ 's') :
    tryMatch (c :: cs) = none := by
  unfold tryMatch
  have h1 : listStartsWith "href=".data (c :: cs) = false := by
    have hd : "href=".data = 'h' :: 'r' :: 'e' :: 'f' :: '=' :: [] := rfl
    rw [hd]
    simp [listStartsWith, Ne.symm hh]
  have h2 : listStartsWith "src=".data (c :: cs) = false := by
    have hd : "src=".data = 's' :: 'r' :: 'c' :: '=' :: [] := rfl
    rw [hd]
    simp [listStartsWith, Ne.symm hs]
  simp [h1, h2]

/-- A failed match attempt advances the scan by one character. -/
theorem scanPDF_nomatch_step (c : Char) (cs : List Char) (h : tryMatch (c :: cs) = none) :
    scanPDF (c :: cs) 0 = scanPDF cs 0 := by
  rw [show scanPDF (c :: cs) 0 = (match tryMatch (c :: cs) with
      | some (u, k) =>
        (if listContainsSub ".pdf".data u.data then [u] else []) ++ scanPDF cs (k - 1)
      | none => scanPDF cs 0) from rfl, h]

/-- A successful match attempt emits the (filtered) URL and skips the match. -/
theorem scanPDF_match_step (c : Char) (cs : List Char) (u : String) (k : Nat)
    (h : tryMatch (c :: cs) = some (u, k)) :
    scanPDF (c :: cs) 0 =
      (if listContainsSub ".pdf".data u.data then [u] else []) ++ scanPDF cs (k - 1) := by
  rw [show scanPDF (c :: cs) 0 = (match tryMatch (c :: cs) with
      | some (u, k) =>
        (if listContainsSub ".pdf".data u.data then [u] else []) ++ scanPDF cs (k - 1)
      | none => scanPDF cs 0) from rfl, h]

/-- The regex matches an `href="v"` attribute whose quote-free value starts
    with `https://`: the run is the whole value and the resolved URL is the
    value itself. -/
theorem tryMatch_href (v : String)
    (hstart : listStartsWith "https://".data v.data = true)
    (hnq : v.data.all notQuote = true) (tail : List Char) :
    tryMatch ('h' :: 'r' :: 'e' :: 'f' :: '=' :: dquoteC :: (v.data ++ dquoteC :: tail)) =
      some (v, 5 + 1 + v.data.length + 1) := by
  have hne : v.data ≠ [] := by
    rcases (listStartsWith_iff "https://".data v.data).mp hstart with ⟨t, ht⟩
    rw [ht]
    simp [show "https://".data = 'h' :: 't' :: 't' :: 'p' :: 's' :: ':' :: '/' :: '/' :: [] from rfl]
  have hrun : (v.data ++ dquoteC :: tail).takeWhile notQuote = v.data := by
    rw [takeWhile_append_all notQuote v.data (dquoteC :: tail)
      (fun c hc => List.all_eq_true.mp hnq c hc)]
    have hq : (dquoteC :: tail).takeWhile notQuote = [] := by
      simp [List.takeWhile_cons, notQuote]
    rw [hq, List.append_nil]
  have hv1 : v.data.isEmpty = false := by
    cases hvd : v.data with
    | nil => exact absurd hvd hne
    | cons a l => rfl
  have hres : resolveRun v.data = v.data := by
    unfold resolveRun
    simp [hstart]
  show (let run := (v.data ++ dquoteC :: tail).takeWhile notQuote
        if run.isEmpty then none
        else if ((v.data ++ dquoteC :: tail).drop run.length).isEmpty then none
        else some (String.mk (resolveRun run), 5 + 1 + run.length + 1)) =
      some (v, 5 + 1 + v.data.length + 1)
  rw [hrun]
  have hd2 : (v.data ++ dquoteC :: tail).drop v.data.length = dquoteC :: tail :=
    List.drop_left v.data (dquoteC :: tail)
  simp only [hv1, hd2, List.isEmpty_cons, if_false, Bool.false_eq_true, hres]

/-- Scanning a rendered anchor `<a href="v">` with a quote-free `https://`
    value containing ".pdf" yields the value and continues after the tag. -/
theorem scanPDF_anchor (v : String)
    (hstart : listStartsWith "https://".data v.data = true)
    (hpdf : listContainsSub ".pdf".data v.data = true)
    (hnq : v.data.all notQuote = true) (rest : List Char) :
    scanPDF ('<' :: 'a' :: spaceC :: 'h' :: 'r' :: 'e' :: 'f' :: '=' :: dquoteC ::
      (v.data ++ dquoteC :: '>' :: rest)) 0 = v :: scanPDF rest 0 := by
  rw [scanPDF_nomatch_step _ _ (tryMatch_head_mismatch '<' _ (by decide) (by decide))]
  rw [scanPDF_nomatch_step _ _ (tryMatch_head_mismatch 'a' _ (by decide) (by decide))]
  rw [scanPDF_nomatch_step _ _ (tryMatch_head_mismatch spaceC _ (by decide) (by decide))]
  rw [scanPDF_match_step 'h' _ v (5 + 1 + v.data.length + 1)
    (tryMatch_href v hstart hnq ('>' :: rest))]
  have hassoc : 'r' :: 'e' :: 'f' :: '=' :: dquoteC :: (v.data ++ dquoteC :: '>' :: rest) =
      ('r' :: 'e' :: 'f' :: '=' :: dquoteC :: (v.data ++ [dquoteC])) ++ ('>' :: rest) := by
    simp
  have hlen : 5 + 1 + v.data.length + 1 - 1 =
      ('r' :: 'e' :: 'f' :: '=' :: dquoteC :: (v.data ++ [dquoteC])).length := by
    simp
    omega
  rw [hassoc, hlen, scanPDF_skip]
  rw [scanPDF_nomatch_step _ _ (tryMatch_head_mismatch '>' _ (by decide) (by decide))]
  simp [hpdf]

/-- Prefix tests are preserved by character maps. -/
theorem listStartsWith_map (f : Char → Char) :
    ∀ (pre s : List Char), listStartsWith pre s = true →
      listStartsWith (pre.map f) (s.map f) = true := by
  intro pre
  induction pre with
  | nil => intro s _; simp [listStartsWith]
  | cons p ps ih =>
    intro s h
    cases s with
    | nil => simp [listStartsWith] at h
    | cons c cs =>
      simp only [listStartsWith, Bool.and_eq_true, decide_eq_true_eq] at h
      simp only [List.map_cons, listStartsWith, Bool.and_eq_true, decide_eq_true_eq]
      exact ⟨congrArg f h.1, ih cs h.2⟩

/-- Containment tests are preserved by character maps. -/
theorem listContainsSub_map (f : Char → Char) (needle : List Char) :
    ∀ s, listContainsSub needle s = true →
      listContainsSub (needle.map f) (s.map f) = true := by
  intro s
  induction s with
  | nil =>
    intro h
    simp [listContainsSub] at h ⊢
    simp [h]
  | cons c cs ih =>
    intro h
    simp only [listContainsSub, Bool.or_eq_true] at h
    rcases h with h | h
    · have := listStartsWith_map f needle (c :: cs) h
      simp only [List.map_cons] at this
      simp [listContainsSub, this]
    · simp [listContainsSub, ih h]

/-- A value containing ".pdf" still contains it after ASCII lowercasing. -/
theorem contains_pdf_toLower (s : List Char) (h : listContainsSub ".pdf".data s = true) :
    listContainsSub ".pdf".data (asciiToLower s) = true := by
  have hm := listContainsSub_map Char.toLower ".pdf".data s h
  rwa [show ".pdf".data.map Char.toLower = ".pdf".data from rfl] at hm

/-- The goquery anchor handler keeps an absolute lower-case-`.pdf` https URL
    unchanged. -/
theorem resolveSDSHref_good (v : String)
    (hstart : listStartsWith "https://".data v.data = true)
    (hpdf : listContainsSub ".pdf".data v.data = true) :
    resolveSDSHref v = some v := by
  rcases (listStartsWith_iff "https://".data v.data).mp hstart with ⟨t, ht⟩
  have hlow : listContainsSub ".pdf".data (asciiToLower v.data) = true :=
    contains_pdf_toLower v.data hpdf
  have hss : listStartsWith "//".data v.data = false := by rw [ht]; rfl
  have hs1 : listStartsWith "/".data v.data = false := by rw [ht]; rfl
  unfold resolveSDSHref
  simp only [hlow, if_true, hss, Bool.false_eq_true, if_false, hs1, hstart, Bool.or_true,
    if_pos]

/-- An anchor on which the two extractors can be compared symbol by symbol:
    a single `href` attribute whose value is an absolute `https://` URL that
    contains the (lower-case) ".pdf" and no quote characters. -/
def goodAnchor (t : HTag) : Bool :=
  match t with
  | ⟨n, [(k, v)]⟩ =>
    n = "a" && k = "href" && listStartsWith "https://".data v.data &&
    listContainsSub ".pdf".data v.data && v.data.all notQuote
  | _ => false

/-- The document of the spec's extraction example as an element sequence. -/
def mixedDoc : List HTag :=
  [⟨"a", [("href", "https://x.com/a.pdf")]⟩,
   ⟨"img", [("src", "//cdn.x.com/b.PDF?query=1")]⟩,
   ⟨"a", [("href", "/rel/c.pdf")]⟩,
   ⟨"a", [("href", "/about")]⟩]

/-- C9 (counterexample): on the rendered spec-example document the two
    extractors disagree: the regex extractor returns
    [https://x.com/a.pdf, /rel/c.pdf] while the structural extractor returns
    [https://x.com/a.pdf, https://www.chemicalguys.com/rel/c.pdf] — it skips
    the `img src` link, matches ".pdf" case-insensitively and resolves the
    root-relative link against the fixed base. -/
theorem C9_counterexample :
    ExtractURLsFromHTML (renderHTML mixedDoc) ≠ getSDSLinksModel mixedDoc := by decide

/-- C9 (amended): the two extractors are not equivalent in general, but they
    agree on every document consisting solely of `<a href="...">` anchors
    whose values are absolute `https://` URLs containing the lower-case
    ".pdf" and free of quote characters. -/
theorem C9_restricted_agreement (doc : List HTag) (h : doc.all goodAnchor = true) :
    ExtractURLsFromHTML (renderHTML doc) = getSDSLinksModel doc := by
  induction doc with
  | nil => rfl
  | cons t ds ih =>
    simp only [List.all_cons, Bool.and_eq_true] at h
    obtain ⟨ht, hds⟩ := h
    obtain ⟨n, attrs⟩ := t
    rcases attrs with _ | ⟨⟨k, v⟩, _ | ⟨a2, rest⟩⟩
    · simp [goodAnchor] at ht
    · simp only [goodAnchor, Bool.and_eq_true, decide_eq_true_eq] at ht
      obtain ⟨⟨⟨⟨hn, hk⟩, hstart⟩, hpdf⟩, hnq⟩ := ht
      subst hn
      subst hk
      have hshape : renderHTMLChars (HTag.mk "a" [("href", v)] :: ds) =
          '<' :: 'a' :: spaceC :: 'h' :: 'r' :: 'e' :: 'f' :: '=' :: dquoteC ::
            (((v.data ++ [dquoteC]) ++ ['>']) ++ renderHTMLChars ds) := rfl
      have hassoc : ((v.data ++ [dquoteC]) ++ ['>']) ++ renderHTMLChars ds =
          v.data ++ dquoteC :: '>' :: renderHTMLChars ds := by
        simp
      have hlhs : ExtractURLsFromHTML (renderHTML (HTag.mk "a" [("href", v)] :: ds)) =
          scanPDF (renderHTMLChars (HTag.mk "a" [("href", v)] :: ds)) 0 := rfl
      rw [hlhs, hshape, hassoc, scanPDF_anchor v hstart hpdf hnq (renderHTMLChars ds)]
      have hrhs : getSDSLinksModel (HTag.mk "a" [("href", v)] :: ds) =
          v :: getSDSLinksModel ds := by
        simp [getSDSLinksModel, attrLookup, resolveSDSHref_good v hstart hpdf]
      rw [hrhs]
      exact congrArg (fun l => v :: l) (ih hds)
    · simp [goodAnchor] at ht

/-- C9 (witness): the restricted agreement applied to a concrete two-anchor
    document. -/
theorem C9_witness :
    ExtractURLsFromHTML (renderHTML
        [⟨"a", [("href", "https://x.com/a.pdf")]⟩,
         ⟨"a", [("href", "https://y.com/b.pdf?v=1")]⟩]) =
      getSDSLinksModel
        [⟨"a", [("href", "https://x.com/a.pdf")]⟩,
         ⟨"a", [("href", "https://y.com/b.pdf?v=1")]⟩] :=
  C9_restricted_agreement
    [⟨"a", [("href", "https://x.com/a.pdf")]⟩,
     ⟨"a", [("href", "https://y.com/b.pdf?v=1")]⟩] (by decide)

/-! ## Claim C2 -/

/-- A host restricted to letters, digits, dots and hyphens (the common shape
    of concrete hosts; every such character is valid in a Go URL host). -/
def simpleHostChar (c : Char) : Bool :=
  isASCIIAlpha c || isASCIIDigit c || c = '.' || c = '-'

/-- A path character that is printable and neither a percent sign (no
    escapes to decode) nor a hash (no fragment). -/
def plainPathChar (c : Char) : Bool :=
  !(isCtlChar c) && !(c = '%') && !(c = '#')

/-- A character of one class differs from any character outside it. -/
theorem ne_of_class (q : Char → Bool) (c x : Char) (hc : q c = true) (hx : q x = false) :
    c ≠ x := by
  intro he
  subst he
  rw [hc] at hx
  cases hx

/-- Simple host characters are acceptable to Go's host validation. -/
theorem simpleHost_allowed (c : Char) (h : simpleHostChar c = true) :
    hostAllowedChar c = true := by
  simp only [simpleHostChar, Bool.or_eq_true, decide_eq_true_eq] at h
  rcases h with ((h | h) | h) | h
  · simp [hostAllowedChar, h]
  · simp [hostAllowedChar, h]
  · subst h; decide
  · subst h; decide

/-- Simple host characters are not control bytes. -/
theorem simpleHost_not_ctl (c : Char) (h : simpleHostChar c = true) :
    isCtlChar c = false := by
  simp only [simpleHostChar, Bool.or_eq_true, decide_eq_true_eq] at h
  rcases h with ((h | h) | h) | h
  · simp only [isASCIIAlpha, Bool.or_eq_true, Bool.and_eq_true, decide_eq_true_eq] at h
    simp only [isCtlChar, Bool.or_eq_false_iff, decide_eq_false_iff_not]
    omega
  · simp only [isASCIIDigit, Bool.and_eq_true, decide_eq_true_eq] at h
    simp only [isCtlChar, Bool.or_eq_false_iff, decide_eq_false_iff_not]
    omega
  · subst h; decide
  · subst h; decide

/-- The components of the plain-path-character test. -/
theorem plainPathChar_spec (c : Char) (h : plainPathChar c = true) :
    isCtlChar c = false ∧ c ≠ '%' ∧ c ≠ '#' := by
  simp only [plainPathChar, Bool.and_eq_true, Bool.not_eq_true', decide_eq_false_iff_not] at h
  exact ⟨h.1.1, h.1.2, h.2⟩

/-- `breakAtChar` passes through a list free of the separator. -/
theorem breakAtChar_not_mem (x : Char) (s : List Char) (h : ∀ c ∈ s, c ≠ x) :
    breakAtChar x s = (s, none) := by
  induction s with
  | nil => rfl
  | cons c cs ih =>
    unfold breakAtChar
    rw [if_neg (h c (by simp))]
    simp [ih (fun d hd => h d (by simp [hd]))]

/-- `breakAtChar` walks through a separator-free prefix. -/
theorem breakAtChar_append_not_mem (x : Char) (xs ys : List Char) (h : ∀ c ∈ xs, c ≠ x) :
    breakAtChar x (xs ++ ys) = (xs ++ (breakAtChar x ys).1, (breakAtChar x ys).2) := by
  induction xs with
  | nil => rfl
  | cons c cs ih =>
    show (if c = x then ([], some (cs ++ ys))
          else (c :: (breakAtChar x (cs ++ ys)).1, (breakAtChar x (cs ++ ys)).2)) = _
    rw [if_neg (h c (by simp)), ih (fun d hd => h d (by simp [hd]))]
    simp

/-- A character never occurring in a list has no last index there. -/
theorem lastIdxOf_not_mem (x : Char) (s : List Char) (h : ∀ c ∈ s, c ≠ x) :
    lastIdxOf x s = none := by
  induction s with
  | nil => rfl
  | cons c cs ih =>
    unfold lastIdxOf
    rw [ih (fun d hd => h d (by simp [hd]))]
    simp [h c (by simp)]

/-- A one-character prefix test fails on a list free of that character. -/
theorem listStartsWith_single_not_mem (x : Char) (s : List Char) (h : ∀ c ∈ s, c ≠ x) :
    listStartsWith [x] s = false := by
  cases s with
  | nil => rfl
  | cons c cs => simp [listStartsWith, Ne.symm (h c (by simp))]

/-- Go's host unescaping is the identity on escape-free valid hosts. -/
theorem unescapeHost_clean (s : List Char)
    (h : ∀ c ∈ s, c ≠ '%' ∧ hostAllowedChar c = true) : unescapeHost s = some s := by
  induction s with
  | nil => rfl
  | cons c cs ih =>
    unfold unescapeHost
    rw [if_neg (h c (by simp)).1]
    simp [(h c (by simp)).2, ih (fun d hd => h d (by simp [hd]))]

/-- Go's path unescaping is the identity on escape-free paths. -/
theorem unescapePath_clean (s : List Char) (h : ∀ c ∈ s, c ≠ '%') :
    unescapePath s = some s := by
  induction s with
  | nil => rfl
  | cons c cs ih =>
    unfold unescapePath
    rw [if_neg (h c (by simp))]
    simp [ih (fun d hd => h d (by simp [hd]))]

/-- `takeWhile` keeps a fully satisfying list. -/
theorem takeWhile_all_eq (q : Char → Bool) (s : List Char) (h : ∀ c ∈ s, q c = true) :
    s.takeWhile q = s := by
  induction s with
  | nil => rfl
  | cons c cs ih =>
    simp only [List.takeWhile_cons, h c (by simp), if_true]
    rw [ih (fun d hd => h d (by simp [hd]))]

/-- `takeWhile` over an append. -/
theorem takeWhile_append_gen (q : Char → Bool) (A B : List Char) :
    (A ++ B).takeWhile q = if A.all q then A ++ B.takeWhile q else A.takeWhile q := by
  induction A with
  | nil => simp
  | cons a A ih =>
    simp only [List.cons_append, List.takeWhile_cons, List.all_cons]
    cases ha : q a with
    | false => simp
    | true =>
      simp only [if_true, Bool.true_and, ih]
      cases hA : A.all q <;> simp

/-- Elements of a `takeWhile` come from the original list. -/
theorem mem_of_mem_takeWhile (q : Char → Bool) (s : List Char) (c : Char)
    (h : c ∈ s.takeWhile q) : c ∈ s := by
  induction s with
  | nil => simp at h
  | cons a l ih =>
    rw [List.takeWhile_cons] at h
    by_cases ha : q a = true
    · rw [if_pos ha] at h
      rcases List.mem_cons.mp h with rfl | h2
      · simp
      · simp [ih h2]
    · rw [if_neg ha] at h
      simp at h

/-- Dropping a slash-started tail from the scan of a reversed list. -/
theorem afterLastSlash_core (q : Char → Bool) (hq : q '/' = false) (xs ys : List Char) :
    ((ys.reverse ++ '/' :: xs.reverse).takeWhile q).reverse =
      (ys.reverse.takeWhile q).reverse := by
  rw [takeWhile_append_gen]
  cases hall : ys.reverse.all q with
  | true =>
    rw [if_pos rfl]
    rw [takeWhile_all_eq q ys.reverse (List.all_eq_true.mp hall)]
    simp [List.takeWhile_cons, hq]
  | false => rw [if_neg (by simp)]

/-- The after-last-slash view ignores everything before a slash. -/
theorem afterLastSlash_append (xs ys : List Char) :
    afterLastSlash (xs ++ '/' :: ys) = afterLastSlash ys := by
  unfold afterLastSlash
  rw [show (xs ++ '/' :: ys).reverse = ys.reverse ++ '/' :: xs.reverse by simp]
  exact afterLastSlash_core _ (by decide) xs ys

/-- Stripping trailing slashes is the identity when the last character is
    not a slash. -/
theorem stripTrailingSlashes_eq_self (s : List Char) (h : s.getLast? ≠ some '/') :
    stripTrailingSlashes s = s := by
  unfold stripTrailingSlashes
  cases hrev : s.reverse with
  | nil =>
    have hs : s = [] := by simpa using congrArg List.reverse hrev
    simp [hs]
  | cons c cs =>
    have hc : c ≠ '/' := by
      intro he
      apply h
      rw [← List.head?_reverse, hrev, he]
      rfl
    rw [List.dropWhile_cons, if_neg (by simp [hc])]
    rw [← hrev, List.reverse_reverse]

/-- The part before the first separator is a `takeWhile`. -/
theorem breakAtChar_fst (x : Char) : ∀ s, (breakAtChar x s).1 = s.takeWhile (fun c => c ≠ x) := by
  intro s
  induction s with
  | nil => rfl
  | cons c cs ih =>
    unfold breakAtChar
    by_cases hc : c = x
    · simp [hc, List.takeWhile_cons]
    · simp [hc, List.takeWhile_cons, ih]

/-- Derivation modelled from the spec's words: the last path segment of the
    URL with the query string and fragment ignored and spaces replaced by
    underscores (lowercasing is stated as a separate policy toggle). -/
def claimDerivedName (url : String) : String :=
  let noFrag := (breakAtChar '#' url.data).1
  let noQuery := (breakAtChar '?' noFrag).1
  String.mk (underscoreSpaces (afterLastSlash noQuery))

/-- An absolute https URL assembled from a host and a path part. -/
def mkHTTPSURL (host p : List Char) : String :=
  String.mk ("https://".data ++ (host ++ '/' :: p))

/-- The URL-parse model on a well-formed https URL with a simple host and a
    plain path returns the path up to the query string. -/
theorem urlParsePath_mkHTTPSURL (host p : List Char)
    (hhc : ∀ c ∈ host, simpleHostChar c = true)
    (hpc : ∀ c ∈ p, plainPathChar c = true) :
    urlParsePath (mkHTTPSURL host p) =
      some ('/' :: p.takeWhile (fun c => c ≠ '?')) := by
  have hhost_q : ∀ c ∈ host, c ≠ '?' :=
    fun c hc => ne_of_class simpleHostChar c '?' (hhc c hc) (by decide)
  have hhost_hash : ∀ c ∈ host, c ≠ '#' :=
    fun c hc => ne_of_class simpleHostChar c '#' (hhc c hc) (by decide)
  have hhost_slash : ∀ c ∈ host, c ≠ '/' :=
    fun c hc => ne_of_class simpleHostChar c '/' (hhc c hc) (by decide)
  have hhost_at : ∀ c ∈ host, c ≠ '@' :=
    fun c hc => ne_of_class simpleHostChar c '@' (hhc c hc) (by decide)
  have hhost_colon : ∀ c ∈ host, c ≠ ':' :=
    fun c hc => ne_of_class simpleHostChar c ':' (hhc c hc) (by decide)
  have hhost_lb : ∀ c ∈ host, c ≠ '[' :=
    fun c hc => ne_of_class simpleHostChar c '[' (hhc c hc) (by decide)
  have hhost_pct : ∀ c ∈ host, c ≠ '%' :=
    fun c hc => ne_of_class simpleHostChar c '%' (hhc c hc) (by decide)
  have hp_hash : ∀ c ∈ p, c ≠ '#' := fun c hc => (plainPathChar_spec c (hpc c hc)).2.2
  have hp_pct : ∀ c ∈ p, c ≠ '%' := fun c hc => (plainPathChar_spec c (hpc c hc)).2.1
  have htail_hash : ∀ c ∈ host ++ '/' :: p, c ≠ '#' := by
    intro c hc
    rcases List.mem_append.mp hc with h1 | h2
    · exact hhost_hash c h1
    · rcases List.mem_cons.mp h2 with rfl | h3
      · decide
      · exact hp_hash c h3
  have hwhole_hash : ∀ c ∈ "https://".data ++ (host ++ '/' :: p), c ≠ '#' := by
    intro c hc
    rcases List.mem_append.mp hc with h1 | h2
    · exact (by decide : ∀ c ∈ "https://".data, c ≠ '#') c h1
    · exact htail_hash c h2
  unfold urlParsePath
  rw [show (mkHTTPSURL host p).data = "https://".data ++ (host ++ '/' :: p) from rfl]
  rw [breakAtChar_not_mem '#' _ hwhole_hash]
  show parseNoFrag ("https://".data ++ (host ++ '/' :: p)) = _
  unfold parseNoFrag
  have hctl : (("https://".data ++ (host ++ '/' :: p)).any isCtlChar) = false := by
    rw [List.any_eq_false]
    intro c hc
    rcases List.mem_append.mp hc with h1 | h2
    · have hall : ∀ c ∈ "https://".data, isCtlChar c = false := by decide
      simp [hall c h1]
    · rcases List.mem_append.mp h2 with h3 | h4
      · simp [simpleHost_not_ctl c (hhc c h3)]
      · rcases List.mem_cons.mp h4 with rfl | h5
        · decide
        · simp [(plainPathChar_spec c (hpc c h5)).1]
  rw [if_neg (by rw [hctl]; simp)]
  rw [if_neg (by
    rw [show ("https://".data : List Char) = 'h' :: 't' :: 't' :: 'p' :: 's' :: ':' :: '/' :: '/' :: [] from rfl,
      show ("*".data : List Char) = ['*'] from rfl]
    simp)]
  have hscheme : getSchemeGo ("https://".data ++ (host ++ '/' :: p))
      ("https://".data ++ (host ++ '/' :: p)) 0 =
      some (['h', 't', 't', 'p', 's'], '/' :: '/' :: (host ++ '/' :: p)) := rfl
  rw [hscheme]
  show (let rest := (breakAtChar '?' ('/' :: '/' :: (host ++ '/' :: p))).1
        if (!listStartsWith "/".data rest) = true then
          if (!(['h', 't', 't', 'p', 's'] : List Char).isEmpty) = true then some []
          else if (breakAtChar '/' rest).1.contains ':' = true then none
          else authPathPart ['h', 't', 't', 'p', 's'] rest
        else authPathPart ['h', 't', 't', 'p', 's'] rest) =
      some ('/' :: p.takeWhile (fun c => c ≠ '?'))
  have hrest : (breakAtChar '?' ('/' :: '/' :: (host ++ '/' :: p))).1 =
      '/' :: '/' :: (host ++ '/' :: p.takeWhile (fun c => c ≠ '?')) := by
    rw [breakAtChar_fst]
    show '/' :: '/' :: ((host ++ '/' :: p).takeWhile (fun c => c ≠ '?')) = _
    rw [takeWhile_append_gen]
    rw [if_pos (List.all_eq_true.mpr (fun c hc => by simp [hhost_q c hc]))]
    rfl
  rw [hrest]
  have hls : listStartsWith "/".data
      ('/' :: '/' :: (host ++ '/' :: p.takeWhile (fun c => c ≠ '?'))) = true := rfl
  rw [if_neg (by rw [hls]; simp)]
  unfold authPathPart
  show (match breakAtChar '/' (host ++ '/' :: p.takeWhile (fun c => c ≠ '?')) with
        | (auth, none) => (parseAuthority auth).bind (fun _ => unescapePath [])
        | (auth, some tail) => (parseAuthority auth).bind (fun _ => unescapePath ('/' :: tail))) =
      some ('/' :: p.takeWhile (fun c => c ≠ '?'))
  have hbreak : breakAtChar '/' (host ++ '/' :: p.takeWhile (fun c => c ≠ '?')) =
      (host, some (p.takeWhile (fun c => c ≠ '?'))) := by
    rw [breakAtChar_append_not_mem '/' host _ hhost_slash]
    simp [breakAtChar]
  rw [hbreak]
  have hauth : parseAuthority host = some host := by
    unfold parseAuthority
    rw [lastIdxOf_not_mem '@' host hhost_at]
    unfold parseHost
    rw [show listStartsWith "[".data host = false from
      listStartsWith_single_not_mem '[' host hhost_lb]
    rw [if_neg (by simp)]
    rw [lastIdxOf_not_mem ':' host hhost_colon]
    show unescapeHost host = some host
    exact unescapeHost_clean host
      (fun c hc => ⟨hhost_pct c hc, simpleHost_allowed c (hhc c hc)⟩)
  show (parseAuthority host).bind
      (fun _ => unescapePath ('/' :: p.takeWhile (fun c => c ≠ '?'))) =
    some ('/' :: p.takeWhile (fun c => c ≠ '?'))
  rw [hauth]
  show unescapePath ('/' :: p.takeWhile (fun c => c ≠ '?')) = _
  rw [unescapePath_clean _ (by
    intro c hc
    rcases List.mem_cons.mp hc with rfl | h2
    · decide
    · exact hp_pct c (mem_of_mem_takeWhile _ p c h2))]

/-- `path.Base` of a rooted path with a nonempty final segment is the part
    after the last slash. -/
theorem pathBase_slash_cons (pq : List Char) (hne : pq ≠ [])
    (hlast : pq.getLast? ≠ some '/') :
    pathBase ('/' :: pq) = afterLastSlash pq := by
  unfold pathBase
  rw [if_neg (by simp)]
  have hl2 : ('/' :: pq).getLast? ≠ some '/' := by
    cases pq with
    | nil => exact absurd rfl hne
    | cons a l =>
      rw [show ('/' :: a :: l).getLast? = (a :: l).getLast? from rfl]
      exact hlast
  rw [stripTrailingSlashes_eq_self _ hl2]
  rw [if_neg (by simp)]
  rw [show ('/' :: pq) = [] ++ '/' :: pq from rfl, afterLastSlash_append]

/-- The claimed derivation on a well-formed https URL also reduces to the
    underscored after-last-slash view of the pre-query path. -/
theorem claimDerivedName_mkHTTPSURL (host p : List Char)
    (hhc : ∀ c ∈ host, simpleHostChar c = true)
    (hpc : ∀ c ∈ p, plainPathChar c = true) :
    claimDerivedName (mkHTTPSURL host p) =
      String.mk (underscoreSpaces (afterLastSlash (p.takeWhile (fun c => c ≠ '?')))) := by
  have hhost_q : ∀ c ∈ host, c ≠ '?' :=
    fun c hc => ne_of_class simpleHostChar c '?' (hhc c hc) (by decide)
  have hhost_hash : ∀ c ∈ host, c ≠ '#' :=
    fun c hc => ne_of_class simpleHostChar c '#' (hhc c hc) (by decide)
  have hp_hash : ∀ c ∈ p, c ≠ '#' := fun c hc => (plainPathChar_spec c (hpc c hc)).2.2
  have hwhole_hash : ∀ c ∈ "https://".data ++ (host ++ '/' :: p), c ≠ '#' := by
    intro c hc
    rcases List.mem_append.mp hc with h1 | h2
    · exact (by decide : ∀ c ∈ "https://".data, c ≠ '#') c h1
    · rcases List.mem_append.mp h2 with h3 | h4
      · exact hhost_hash c h3
      · rcases List.mem_cons.mp h4 with rfl | h5
        · decide
        · exact hp_hash c h5
  unfold claimDerivedName
  rw [show (mkHTTPSURL host p).data = "https://".data ++ (host ++ '/' :: p) from rfl]
  rw [breakAtChar_not_mem '#' _ hwhole_hash]
  show String.mk (underscoreSpaces (afterLastSlash
    ((breakAtChar '?' ("https://".data ++ (host ++ '/' :: p))).1))) = _
  rw [breakAtChar_fst]
  show String.mk (underscoreSpaces (afterLastSlash
    ('h' :: 't' :: 't' :: 'p' :: 's' :: ':' :: '/' :: '/' ::
      ((host ++ '/' :: p).takeWhile (fun c => c ≠ '?'))))) = _
  rw [takeWhile_append_gen]
  rw [if_pos (List.all_eq_true.mpr (fun c hc => by simp [hhost_q c hc]))]
  rw [show ('h' :: 't' :: 't' :: 'p' :: 's' :: ':' :: '/' :: '/' ::
      (host ++ ('/' :: p).takeWhile (fun c => c ≠ '?'))) =
    ('h' :: 't' :: 't' :: 'p' :: 's' :: ':' :: '/' :: '/' :: host) ++
      '/' :: p.takeWhile (fun c => c ≠ '?') from by simp]
  rw [afterLastSlash_append]

/-- C2 (counterexample): the `getFileNamesFromURLs` the claim cites at
    src/main.go lines 77-91 does not lowercase: on the spec's example URL it
    derives "My_File.pdf", not the claimed "my_file.pdf". -/
theorem C2_counterexample :
    getFileNamesFromURLs specFileURL = "My_File.pdf" ∧
    getFileNamesFromURLs specFileURL ≠ "my_file.pdf" := by decide

/-- C2 (amended): the lines 618-629 variant is the lowercasing of the lines
    77-91 variant on every URL (first conjunct); on well-formed https URLs
    with a simple host and a plain, percent- and fragment-free path whose
    pre-query part has a nonempty final segment, the lines 77-91 variant
    derives exactly the claimed last-path-segment with query ignored and
    spaces replaced by underscores, without lowercasing (second conjunct);
    on the spec's example the two variants give my_file.pdf and My_File.pdf
    respectively (final conjuncts). -/
theorem C2_filename_derivation :
    (∀ url : String, getFileNamesFromURLsLower url =
        String.mk (asciiToLower (getFileNamesFromURLs url).data)) ∧
    (∀ host p : List Char,
      (∀ c ∈ host, simpleHostChar c = true) →
      (∀ c ∈ p, plainPathChar c = true) →
      p.takeWhile (fun c => c ≠ '?') ≠ [] →
      (p.takeWhile (fun c => c ≠ '?')).getLast? ≠ some '/' →
      getFileNamesFromURLs (mkHTTPSURL host p) = claimDerivedName (mkHTTPSURL host p)) ∧
    getFileNamesFromURLsLower specFileURL = "my_file.pdf" ∧
    claimDerivedName specFileURL = "My_File.pdf" := by
  refine ⟨?_, ?_, by decide, by decide⟩
  · intro url
    unfold getFileNamesFromURLsLower getFileNamesFromURLs
    cases h : urlParsePath url <;> rfl
  · intro host p hhc hpc hne hlast
    unfold getFileNamesFromURLs
    rw [urlParsePath_mkHTTPSURL host p hhc hpc]
    rw [claimDerivedName_mkHTTPSURL host p hhc hpc]
    show String.mk (underscoreSpaces (pathBase ('/' :: p.takeWhile (fun c => c ≠ '?')))) =
      String.mk (underscoreSpaces (afterLastSlash (p.takeWhile (fun c => c ≠ '?'))))
    rw [pathBase_slash_cons _ hne hlast]

/-- C2 (witness): the general derivation conjunct applied to the spec's
    example URL https://example.com/docs/My File.pdf?v=2. -/
theorem C2_witness :
    getFileNamesFromURLs (mkHTTPSURL "example.com".data "docs/My File.pdf?v=2".data) =
      claimDerivedName (mkHTTPSURL "example.com".data "docs/My File.pdf?v=2".data) :=
  C2_filename_derivation.2.1 "example.com".data "docs/My File.pdf?v=2".data
    (by decide) (by decide) (by decide) (by decide)
